import Mathlib

/-
Verification of `torch/_inductor/optimize_indexing.py`.

The development shallowly embeds, in Lean, the data model and operations of
the value-range-analysis pass that narrows int64 `to_dtype` intermediates
to int32:

* the interval lattice `ValueRanges` with its combinators (`unary_map`,
  `checked_unary_map`, `binary_map`, `binary_map_products`);
* the 32-bit expressibility predicates `val_expressable_in_32_bits` and
  `range_expressable_in_32_bits`;
* the transfer functions `to_dtype` and `constant` of `ValueRangeAnalysis`
  and its attribute-dispatch fallback (`__getattr__` / `default_handler`);
* the symbolic bound solver `_get_index_impl` over a small index-expression
  language mirroring the sympy expressions the pass manipulates;
* the fx-graph worklist closure `dominated_nodes`, the pessimistic
  `tensor_values_set`, `try_to_reduce_precision` and `run` of
  `OptimizeIndexing`, with the graph's mutable `args` threaded explicitly.

Scalar bounds are modelled with `ℤ` for Python/sympy integers and `ℚ` for
Python/sympy floats (the pass compares float values exactly, never rounds),
with explicit `ninf` / `pinf` constructors for `-math.inf` / `math.inf`.
-/

namespace OptInd

/-! ## Torch dtypes (the subset the pass inspects) -/

inductive DType
  | int32
  | int64
  | float16
  | bfloat16
  | float32
  | float64
  | boolT
  deriving DecidableEq

/-- `torch.dtype.is_floating_point`. -/
def DType.is_floating_point : DType → Bool
  | .float16 | .bfloat16 | .float32 | .float64 => true
  | _ => false

/-! ## The interval lattice `ValueRanges` (source lines 19-61)

The Python class stores a `lower` and an `upper` bound; the combinators are
classmethods.  `wrap` lifts a scalar to the degenerate range.  We keep the
bound type generic (any linear order) exactly as the Python code applies the
combinators to ints, floats and sympy numbers alike. -/

structure ValueRanges (α : Type) where
  lower : α
  upper : α
  deriving DecidableEq

namespace ValueRanges

/-- `ValueRanges.wrap`: lift a scalar to a degenerate range. -/
def wrap {α : Type} (arg : α) : ValueRanges α := ⟨arg, arg⟩

/-- `ValueRanges.unary_map`: map lower and upper bound with `fn`. -/
def unary_map {α β : Type} (x : ValueRanges α) (fn : α → β) : ValueRanges β :=
  ⟨fn x.lower, fn x.upper⟩

/-- `ValueRanges.checked_unary_map`: map both bounds with `fn`, then take the
min and max of the two computed values. -/
def checked_unary_map {α β : Type} [LinearOrder β] (x : ValueRanges α) (fn : α → β) :
    ValueRanges β :=
  let out := unary_map x fn
  ⟨min out.lower out.upper, max out.lower out.upper⟩

/-- `ValueRanges.binary_map`: map upper and lower bounds accessing
corresponding values of the inputs. -/
def binary_map {α β γ : Type} (x : ValueRanges α) (y : ValueRanges β) (fn : α → β → γ) :
    ValueRanges γ :=
  ⟨fn x.lower y.lower, fn x.upper y.upper⟩

/-- `ValueRanges.binary_map_products`: evaluate `fn` on all four products of
bounds (in `itertools.product` order) and take their min and max. -/
def binary_map_products {α β γ : Type} [LinearOrder γ] (a : ValueRanges α)
    (b : ValueRanges β) (fn : α → β → γ) : ValueRanges γ :=
  let p1 := fn a.lower b.lower
  let p2 := fn a.lower b.upper
  let p3 := fn a.upper b.lower
  let p4 := fn a.upper b.upper
  ⟨min (min (min p1 p2) p3) p4, max (max (max p1 p2) p3) p4⟩

/-- A value lies between the two bounds of a range (the bounds may appear in
either order, as for `binary_map` with a decreasing function). -/
def between {β : Type} [LinearOrder β] (r : ValueRanges β) (v : β) : Prop :=
  min r.lower r.upper ≤ v ∧ v ≤ max r.lower r.upper

end ValueRanges

/-! ## 32-bit expressibility (source lines 236-258)

Bounds flowing through the narrowing engine are `-math.inf`, `math.inf`,
sympy integers or sympy floats; `val_expressable_in_32_bits` converts a sympy
constant to the corresponding Python scalar and then branches on its kind. -/

inductive BVal
  | ninf
  | pinf
  | intv (n : ℤ)
  | floatv (q : ℚ)
  deriving DecidableEq

/-- `math.isinf` on a bound. -/
def BVal.is_inf : BVal → Bool
  | .ninf => true
  | .pinf => true
  | _ => false

/-- Python `int(...)` applied to a finite bound: truncation toward zero
(floor for nonnegative values, ceiling for negative ones).  The engine only
applies it after an `isinf` guard; on infinities we return 0 (unreachable). -/
def BVal.toIntTrunc : BVal → ℤ
  | .intv n => n
  | .floatv q => if 0 ≤ q then ⌊q⌋ else ⌈q⌉
  | .ninf => 0
  | .pinf => 0

/-- `val_expressable_in_32_bits`: floats are bounded by the exactly
representable mantissa window `[-2^24, 2^24]`; integers by
`torch.iinfo(torch.int32)`, i.e. `[-2^31, 2^31 - 1]`.  `math.inf` and
`-math.inf` are Python floats and fail the float bounds. -/
def val_expressable_in_32_bits : BVal → Bool
  | .ninf => false
  | .pinf => false
  | .floatv q => decide (q ≤ 2 ^ 24) && decide (-(2 ^ 24 : ℚ) ≤ q)
  | .intv n => decide (n ≤ 2 ^ 31 - 1) && decide (-(2 ^ 31 : ℤ) ≤ n)

/-- A range on engine bounds. -/
abbrev VRange := ValueRanges BVal

/-- `range_expressable_in_32_bits`. -/
def range_expressable_in_32_bits (range : VRange) : Bool :=
  val_expressable_in_32_bits range.lower && val_expressable_in_32_bits range.upper

/-! ## `ValueRangeAnalysis.constant` (source lines 126-135) -/

/-- A Python numeric literal as passed to `constant`: an int, a non-NaN
float (modelled exactly as a rational), or the float NaN. -/
inductive PyConst
  | pint (n : ℤ)
  | pfloat (q : ℚ)
  | pnan
  deriving DecidableEq

namespace ValueRangeAnalysis

/-- `ValueRangeAnalysis.constant`: NaN collapses to the unbounded range;
an int literal wraps to a degenerate `sympy.Integer` range; any other float
to a degenerate `sympy.Float` range. -/
def constant (value : PyConst) (_dtype : DType) : VRange :=
  match value with
  | .pnan => ⟨.ninf, .pinf⟩
  | .pint n => ⟨.intv n, .intv n⟩
  | .pfloat q => ⟨.floatv q, .floatv q⟩

end ValueRangeAnalysis

/-! ## `ValueRangeAnalysis.to_dtype` (source lines 109-124)

The local helper `is_bool(val)` tests `isinstance(val, bool)` on its
parameter but then tests `hasattr(low, "is_Boolean") and low.is_Boolean` on
the *closed-over* `low`, not on `val`.  The embedding keeps that capture. -/

/-- A scalar bound as seen by `to_dtype`: a Python `bool`, a sympy Boolean,
a sympy Integer or a sympy Float. -/
inductive PyVal
  | pybool (b : Bool)
  | symbool (b : Bool)
  | symint (n : ℤ)
  | symfloat (q : ℚ)
  deriving DecidableEq

/-- `hasattr(v, "is_Boolean")`: sympy objects carry the attribute, Python
scalars do not. -/
def PyVal.has_is_Boolean : PyVal → Bool
  | .pybool _ => false
  | _ => true

/-- The sympy `is_Boolean` property. -/
def PyVal.is_Boolean : PyVal → Bool
  | .symbool _ => true
  | _ => false

/-- A range of `to_dtype` bounds. -/
abbrev PVRange := ValueRanges PyVal

namespace ValueRangeAnalysis

/-- The closure `is_bool(val)` inside `to_dtype`: its second disjunct reads
the captured `low`, not `val`. -/
def to_dtype_is_bool (low val : PyVal) : Bool :=
  (match val with | .pybool _ => true | _ => false) ||
    (low.has_is_Boolean && low.is_Boolean)

/-- `ValueRangeAnalysis.to_dtype`.  `none` models the `assert is_bool(up)`
failing with `AssertionError`. -/
def to_dtype (x : PVRange) (dtype : DType) : Option PVRange :=
  let low := x.lower
  let up := x.upper
  if to_dtype_is_bool low low then
    if to_dtype_is_bool low up then
      if dtype.is_floating_point then some ⟨.symfloat 0, .symfloat 1⟩
      else some ⟨.symint 0, .symint 1⟩
    else none
  else some x

end ValueRangeAnalysis

/-! ## Dispatch of `ValueRangeAnalysis` (source lines 64-94, 211-213)

`__init__` installs `bool_handler` as an instance attribute for each boolean
operator; the remaining operations are methods of the class; `__getattr__`
fires only for names that resolve to neither and returns `default_handler`
after logging. -/

/-- The boolean operator names installed in `__init__`. -/
def boolean_operators : List String :=
  ["eq", "ne", "lt", "gt", "le", "ge", "and_", "or_", "xor",
   "logical_and", "logical_or", "logical_not"]

/-- The operation names defined as methods on `ValueRangeAnalysis`. -/
def explicit_methods : List String :=
  ["bool_handler", "default_handler", "load", "store", "reduction",
   "index_expr", "to_dtype", "constant", "reciprocal", "abs", "neg",
   "truediv", "div", "add", "mul", "sub", "exp", "square", "log", "sqrt",
   "pow", "minimum", "maximum", "where", "floor", "ceil"]

/-- How an attribute lookup on a `ValueRangeAnalysis` object resolves. -/
inductive Dispatch
  | installed
  | method
  | fallback
  deriving DecidableEq

/-- Attribute resolution: instance attributes first, then class methods,
otherwise `__getattr__` fires and yields the fallback handler. -/
def getattr_dispatch (name : String) : Dispatch :=
  if name ∈ boolean_operators then .installed
  else if name ∈ explicit_methods then .method
  else .fallback

/-- `ValueRangeAnalysis.default_handler`: `(-math.inf, math.inf)` whatever
the arguments. -/
def default_handler (_args : List VRange) : VRange := ⟨.ninf, .pinf⟩

end OptInd

namespace OptInd

/-! ## Index expressions and the symbolic bound solver (source lines 434-494)

The solver works on sympy expressions built from loop-index symbols,
integer/rational constants, `+`, `-` and `*` (after `ModularIndexing` and
`IndexingDiv` have been replaced by true division; our expressions carry the
already-replaced form, so `replace_symbols_for_deriv` is the identity here).
sympy auto-evaluates arithmetic on numbers, so the derivative returned by
`sympy.diff` has its constant subterms folded; the smart constructors below
mirror that auto-evaluation.  `is_positive` models sympy's assumption query
on symbols that carry no assumptions: decided for constant expressions,
`None` otherwise. -/

inductive IExpr
  | const (n : ℤ)
  | varE (v : ℕ)
  | add (a b : IExpr)
  | sub (a b : IExpr)
  | mul (a b : IExpr)
  deriving DecidableEq

namespace IExpr

/-- Evaluate under an assignment of the symbols. -/
def eval (ρ : ℕ → ℤ) : IExpr → ℤ
  | .const q => q
  | .varE v => ρ v
  | .add a b => eval ρ a + eval ρ b
  | .sub a b => eval ρ a - eval ρ b
  | .mul a b => eval ρ a * eval ρ b

/-- `expr.free_symbols`. -/
def free_symbols : IExpr → Finset ℕ
  | .const _ => ∅
  | .varE v => {v}
  | .add a b => free_symbols a ∪ free_symbols b
  | .sub a b => free_symbols a ∪ free_symbols b
  | .mul a b => free_symbols a ∪ free_symbols b

/-- Addition with sympy's automatic evaluation on numbers. -/
def addS (a b : IExpr) : IExpr :=
  match a, b with
  | .const p, .const q => .const (p + q)
  | _, _ =>
    if a = .const 0 then b else if b = .const 0 then a else .add a b

/-- Subtraction with sympy's automatic evaluation on numbers. -/
def subS (a b : IExpr) : IExpr :=
  match a, b with
  | .const p, .const q => .const (p - q)
  | _, _ => if b = .const 0 then a else .sub a b

/-- Multiplication with sympy's automatic evaluation on numbers. -/
def mulS (a b : IExpr) : IExpr :=
  match a, b with
  | .const p, .const q => .const (p * q)
  | _, _ =>
    if a = .const 0 ∨ b = .const 0 then .const 0
    else if a = .const 1 then b
    else if b = .const 1 then a
    else .mul a b

/-- `sympy.diff` with respect to one symbol (product rule; constants fold as
sympy auto-evaluates them). -/
def diff : IExpr → ℕ → IExpr
  | .const _, _ => .const 0
  | .varE w, s => if w = s then .const 1 else .const 0
  | .add a b, s => addS (diff a s) (diff b s)
  | .sub a b, s => subS (diff a s) (diff b s)
  | .mul a b, s => addS (mulS (diff a s) b) (mulS a (diff b s))

/-- sympy's `is_positive` on an expression whose symbols carry no
assumptions: `some` of the sign test for constant expressions, `none` (the
Python `None`) otherwise. -/
def is_positive (e : IExpr) : Option Bool :=
  if e.free_symbols = ∅ then some (decide (0 < e.eval fun _ => 0)) else none

end IExpr

/-- The symbols classified monotonically increasing: derivative with
`is_positive` equal to `True`. -/
def monotonic_increasing (e : IExpr) : Finset ℕ :=
  e.free_symbols.filter fun s => (e.diff s).is_positive = some true

/-- The symbols classified monotonically decreasing: derivative with
`is_positive` equal to `False` (which sympy also reports for a zero
derivative). -/
def monotonic_decreasing (e : IExpr) : Finset ℕ :=
  e.free_symbols.filter fun s => (e.diff s).is_positive = some false

/-- The symbols whose derivative sign sympy cannot establish
(`is_positive` is `None`). -/
def other_symbols (e : IExpr) : Finset ℕ :=
  e.free_symbols.filter fun s => (e.diff s).is_positive = none

/-- Solver bounds: a rational, or one of `±math.inf`. -/
inductive EQv
  | ninf
  | pinf
  | val (n : ℤ)
  deriving DecidableEq

/-- A solver range. -/
abbrev SRange := ValueRanges EQv

/-- `OptimizeIndexing._get_index_impl` for an expression whose free symbols
all have (finite) entries in the replacement table `table` (each symbol maps
to its known lower and upper bound).  A closed expression resolves to its own
degenerate range; if every free symbol is classified increasing or
decreasing, the max substitutes the upper bound of increasing symbols and the
lower bound of the others, the min the opposite; if any symbol is classified
"other", the result is the fully unbounded range. -/
def get_index_impl (e : IExpr) (table : ℕ → ℤ × ℤ) : SRange :=
  if e.free_symbols = ∅ then
    ⟨.val (e.eval fun _ => 0), .val (e.eval fun _ => 0)⟩
  else if other_symbols e = ∅ then
    let max_val := e.eval fun k =>
      if k ∈ monotonic_increasing e then (table k).2 else (table k).1
    let min_val := e.eval fun k =>
      if k ∈ monotonic_increasing e then (table k).1 else (table k).2
    ⟨.val min_val, .val max_val⟩
  else ⟨.ninf, .pinf⟩

/-! ## Seeding of the replacement table (source lines 290-291, 421-424)

`OptimizeIndexing.__init__` iterates over `indices_ranges.items()` and calls
`replace_indirect(k, ValueRanges(0, v))` for each loop index symbol `k` with
static extent `v`. -/

/-- `replace_indirect`: store `new` under key `old`. -/
def replace_indirect (tbl : ℕ → Option SRange) (old : ℕ) (new : SRange) :
    ℕ → Option SRange :=
  fun k => if k = old then some new else tbl k

/-- The replacement table after the `__init__` seeding loop, starting from
the empty dict. -/
def seed_replacement_vals (indices_ranges : List (ℕ × ℤ)) : ℕ → Option SRange :=
  indices_ranges.foldl
    (fun tbl kv => replace_indirect tbl kv.1 ⟨.val 0, .val kv.2⟩)
    (fun _ => none)

end OptInd

namespace OptInd

/-! ## The fx graph and `dominated_nodes` (source lines 216-233)

A node is identified by a natural number.  The opcode strings are embedded
structurally: the parameterized families `masked_subblock<i>` /
`set_indirect<i>` (recognized by substring tests in the Python) become
constructors carrying the index.  The nodes of the root graph and of all
subblock graphs form one universe `nodes`; `users` are the consumer edges
(`node.users`), which stay inside the graph.  The `args` tuples are the
mutable part of a node and are threaded separately as a map
`ℕ → List GArg`. -/

inductive Opcode
  | load
  | store
  | reduction
  | output
  | to_dtype
  | get_index
  | masked_subblock (i : ℕ)
  | set_indirect (i : ℕ)
  | generic (name : String)
  deriving DecidableEq

/-- One entry of a node's `args` tuple: a torch dtype, a reference to
another node, or any other literal (opaque for this pass). -/
inductive GArg
  | dt (d : DType)
  | nodeRef (n : ℕ)
  | misc (k : ℕ)
  deriving DecidableEq

structure FxGraph where
  nodes : List ℕ
  target : ℕ → Opcode
  users : ℕ → List ℕ
  nodup : nodes.Nodup
  users_wf : ∀ n, n ∈ nodes → ∀ u, u ∈ users n → u ∈ nodes

/-- `node.args[2]` under the mutable args map. -/
def third_arg (args : ℕ → List GArg) (n : ℕ) : Option GArg :=
  (args n)[2]?

/-- The inner `for user in node.users` loop of `dominated_nodes`: a skipped
user is ignored; an unseen user is added to the dominated set and queued. -/
def process_users (skip : ℕ → Bool) : List ℕ → List ℕ → Finset ℕ →
    List ℕ × Finset ℕ
  | [], queue, dom => (queue, dom)
  | user :: us, queue, dom =>
    if skip user then process_users skip us queue dom
    else if user ∈ dom then process_users skip us queue dom
    else process_users skip us (user :: queue) (insert user dom)

/-- The worklist loop of `dominated_nodes`.  Fuel-indexed: each iteration
pops one queued node and processes its users; `dominated_nodes` supplies
enough fuel for the queue to drain (each node enters the queue at most
once). -/
def dominated_loop (users : ℕ → List ℕ) (skip : ℕ → Bool) :
    ℕ → List ℕ → Finset ℕ → Finset ℕ
  | 0, _, dom => dom
  | _ + 1, [], dom => dom
  | fuel + 1, node :: queue, dom =>
    let qd := process_users skip (users node) queue dom
    dominated_loop users skip fuel qd.1 qd.2

/-- `dominated_nodes(initial_queue, skip_filter)`: the forward-reachable
closure of `initial_queue` along consumer edges, never traversing into a
node accepted by `skip`.  `skip_filter=None` is the constantly-false
filter. -/
def dominated_nodes (g : FxGraph) (skip : ℕ → Bool) (initial_queue : List ℕ) :
    Finset ℕ :=
  dominated_loop g.users skip (initial_queue.length + g.nodes.length)
    initial_queue initial_queue.toFinset

/-- Forward reachability along consumer edges with every traversed user
rejected by `skip` (the start node itself is not subjected to `skip`,
matching `dominated_nodes` which always keeps its initial queue). -/
inductive Reaches (users : ℕ → List ℕ) (skip : ℕ → Bool) : ℕ → ℕ → Prop
  | refl (n : ℕ) : Reaches users skip n n
  | step {a b c : ℕ} : Reaches users skip a b → c ∈ users b →
      skip c = false → Reaches users skip a c

/-! ## The narrowing engine (source lines 261-381)

`InterpreterShim`, `LoopBody` and the ops-handler context come from
`torch/_inductor/ir.py` / `virtualized.py`, which are outside this
repository snapshot.  Modelled from the spec: the interpreter driver only
populates the node→range environment (`interp_env`) and, through
`set_indirect`, the replacement table; it never touches node `args`.  Both
tables are therefore taken as given, fixed inputs of the decision procedure
(`EngineCtx`), which is exactly the state `try_to_reduce_precision` reads
after `interpreter.run` has completed. -/

structure EngineCtx where
  /-- `loop_body.indirect_vars`, as a total index→symbol map. -/
  indirect_vars : ℕ → ℕ
  /-- `index_indirect_dependecies.items()`: for each index-expression name,
  the set of indirect symbols it mentions. -/
  index_indirect_deps : List (String × Finset ℕ)
  /-- `replacement_vals` as left by interpretation, keyed by index name. -/
  replacement_vals : String → VRange
  /-- `interp_env` as left by interpretation. -/
  interp_env : ℕ → VRange

/-- The `skip_filter` closure of `try_to_reduce_precision`: a `to_dtype`
node whose third argument is `torch.int32`, `torch.float32` or
`torch.float64`. -/
def skip_filter (g : FxGraph) (args : ℕ → List GArg) (n : ℕ) : Bool :=
  decide (g.target n = .to_dtype) &&
    (decide (third_arg args n = some (.dt .int32)) ||
     decide (third_arg args n = some (.dt .float32)) ||
     decide (third_arg args n = some (.dt .float64)))

/-- The `set_indirect` branch of the dominated-node walk: for every index
expression depending on the bound indirect symbol, its resolved range must
have finite bounds and, truncated to integers, be 32-bit expressable. -/
def indirect_ok (ctx : EngineCtx) (idx : ℕ) : Bool :=
  ctx.index_indirect_deps.all fun p =>
    if ctx.indirect_vars idx ∈ p.2 then
      let index_val := ctx.replacement_vals p.1
      if index_val.lower.is_inf || index_val.upper.is_inf then false
      else
        range_expressable_in_32_bits
          ⟨.intv index_val.lower.toIntTrunc, .intv index_val.upper.toIntTrunc⟩
    else true

/-- The per-member test of the dominated-node walk: `store` and `output`
sinks are skipped; a `set_indirect` member must additionally pass
`indirect_ok`; every non-sink member's interpreted range must be 32-bit
expressable. -/
def dominated_ok (g : FxGraph) (ctx : EngineCtx) (d : ℕ) : Bool :=
  match g.target d with
  | .store => true
  | .output => true
  | .set_indirect idx =>
    indirect_ok ctx idx && range_expressable_in_32_bits (ctx.interp_env d)
  | _ => range_expressable_in_32_bits (ctx.interp_env d)

/-- `OptimizeIndexing.try_to_reduce_precision`: walk the skip-filtered
dominated set of `node`; any failing member causes the early `return`
(no mutation); otherwise `node.args[2]` is rewritten to `torch.int32`.
The Python early-return over a set is order-insensitive because the checks
are pure, so it equals the guarded bulk test. -/
def try_to_reduce_precision (g : FxGraph) (ctx : EngineCtx)
    (args : ℕ → List GArg) (node : ℕ) : ℕ → List GArg :=
  if ∀ d ∈ dominated_nodes g (skip_filter g args) [node], dominated_ok g ctx d = true
  then fun n => if n = node then (args node).set 2 (.dt .int32) else args n
  else args

/-- The seeds of the tensor-values set: `load`, `reduction`, and
`masked_subblock<i>` nodes (a substring test in the Python). -/
def is_tensor_source (g : FxGraph) (n : ℕ) : Bool :=
  match g.target n with
  | .load => true
  | .reduction => true
  | .masked_subblock _ => true
  | _ => false

/-- `tensor_values_set`: the unfiltered dominated set of all tensor
sources (source lines 293-301). -/
def tensor_values_set (g : FxGraph) : Finset ℕ :=
  dominated_nodes g (fun _ => false) (g.nodes.filter (is_tensor_source g))

/-- The candidate list of `run`: `to_dtype` nodes casting to `torch.int64`
that are not in the tensor-values set, collected before any mutation. -/
def int64_dtype_nodes (g : FxGraph) (args : ℕ → List GArg) : List ℕ :=
  g.nodes.filter fun n =>
    decide (g.target n = .to_dtype) &&
      decide (third_arg args n = some (.dt .int64)) &&
      decide (n ∉ tensor_values_set g)

/-- `OptimizeIndexing.run` restricted to its mutation surface: the
interpretation prelude only fills `ctx` (see `EngineCtx`); then each
candidate is offered to `try_to_reduce_precision` in turn, threading the
mutated args. -/
def run (g : FxGraph) (ctx : EngineCtx) (args : ℕ → List GArg) :
    ℕ → List GArg :=
  (int64_dtype_nodes g args).foldl
    (fun a node => try_to_reduce_precision g ctx a node) args

end OptInd

namespace OptInd

/-! ## Correctness of the worklist closure

`dominated_nodes` computes exactly the nodes reachable from the initial
queue along consumer edges through non-skipped users.  The invariants below
follow the loop: `process_users` only adds non-skipped users of the popped
node, every newly added node is queued, and each iteration decreases
`|queue| + |universe \ dom|`, so the supplied fuel drains the queue. -/

theorem process_users_dom_subset (skip : ℕ → Bool) (us : List ℕ) :
    ∀ queue dom, dom ⊆ (process_users skip us queue dom).2 := by
  induction us with
  | nil => intro queue dom; simp [process_users]
  | cons user us ih =>
    intro queue dom
    simp only [process_users]
    split
    · exact ih queue dom
    · split
      · exact ih queue dom
      · exact subset_trans (Finset.subset_insert user dom) (ih _ _)

theorem process_users_queue_subset (skip : ℕ → Bool) (us : List ℕ) :
    ∀ queue dom m, m ∈ queue → m ∈ (process_users skip us queue dom).1 := by
  induction us with
  | nil => intro queue dom m hm; simpa [process_users] using hm
  | cons user us ih =>
    intro queue dom m hm
    simp only [process_users]
    split
    · exact ih queue dom m hm
    · split
      · exact ih queue dom m hm
      · exact ih _ _ m (List.mem_cons_of_mem user hm)

theorem process_users_queue_in_dom (skip : ℕ → Bool) (us : List ℕ) :
    ∀ queue dom, (∀ m ∈ queue, m ∈ dom) →
      ∀ m ∈ (process_users skip us queue dom).1,
        m ∈ (process_users skip us queue dom).2 := by
  induction us with
  | nil =>
    intro queue dom h m hm
    simp only [process_users] at hm ⊢
    exact h m hm
  | cons user us ih =>
    intro queue dom h m hm
    simp only [process_users] at hm ⊢
    by_cases hsk : skip user = true
    · rw [if_pos hsk] at hm ⊢
      exact ih queue dom h m hm
    · rw [if_neg hsk] at hm ⊢
      by_cases hd : user ∈ dom
      · rw [if_pos hd] at hm ⊢
        exact ih queue dom h m hm
      · rw [if_neg hd] at hm ⊢
        refine ih _ _ ?_ m hm
        intro x hx
        rcases List.mem_cons.mp hx with hx | hx
        · simp [hx]
        · exact Finset.mem_insert_of_mem (h x hx)

theorem process_users_mem_cases (skip : ℕ → Bool) (us : List ℕ) :
    ∀ queue dom m, m ∈ (process_users skip us queue dom).2 →
      m ∈ dom ∨ (m ∈ us ∧ skip m = false) := by
  induction us with
  | nil => intro queue dom m hm; simp only [process_users] at hm; exact Or.inl hm
  | cons user us ih =>
    intro queue dom m hm
    simp only [process_users] at hm
    by_cases hsk : skip user = true
    · rw [if_pos hsk] at hm
      rcases ih queue dom m hm with h | h
      · exact Or.inl h
      · exact Or.inr ⟨List.mem_cons_of_mem user h.1, h.2⟩
    · rw [if_neg hsk] at hm
      by_cases hd : user ∈ dom
      · rw [if_pos hd] at hm
        rcases ih queue dom m hm with h | h
        · exact Or.inl h
        · exact Or.inr ⟨List.mem_cons_of_mem user h.1, h.2⟩
      · rw [if_neg hd] at hm
        rcases ih _ _ m hm with h | h
        · rcases Finset.mem_insert.mp h with h | h
          · subst h
            exact Or.inr ⟨List.mem_cons_self _ _, Bool.eq_false_iff.mpr hsk⟩
          · exact Or.inl h
        · exact Or.inr ⟨List.mem_cons_of_mem user h.1, h.2⟩

theorem process_users_covers (skip : ℕ → Bool) (us : List ℕ) :
    ∀ queue dom u, u ∈ us → skip u = false →
      u ∈ (process_users skip us queue dom).2 := by
  induction us with
  | nil => intro _ _ u hu; exact absurd hu (List.not_mem_nil u)
  | cons user us ih =>
    intro queue dom u hu hsk
    simp only [process_users]
    rcases List.mem_cons.mp hu with rfl | hu
    · rw [if_neg (by simp [hsk])]
      by_cases hd : u ∈ dom
      · rw [if_pos hd]
        exact process_users_dom_subset skip us queue dom hd
      · rw [if_neg hd]
        exact process_users_dom_subset skip us _ _ (Finset.mem_insert_self u dom)
    · by_cases hsku : skip user = true
      · rw [if_pos hsku]
        exact ih queue dom u hu hsk
      · rw [if_neg hsku]
        by_cases hd : user ∈ dom
        · rw [if_pos hd]
          exact ih queue dom u hu hsk
        · rw [if_neg hd]
          exact ih _ _ u hu hsk

theorem process_users_new_queued (skip : ℕ → Bool) (us : List ℕ) :
    ∀ queue dom m, m ∈ (process_users skip us queue dom).2 → m ∉ dom →
      m ∈ (process_users skip us queue dom).1 := by
  induction us with
  | nil => intro queue dom m hm hnot; simp only [process_users] at hm; exact absurd hm hnot
  | cons user us ih =>
    intro queue dom m hm hnot
    simp only [process_users] at hm ⊢
    by_cases hsk : skip user = true
    · rw [if_pos hsk] at hm ⊢
      exact ih queue dom m hm hnot
    · rw [if_neg hsk] at hm ⊢
      by_cases hd : user ∈ dom
      · rw [if_pos hd] at hm ⊢
        exact ih queue dom m hm hnot
      · rw [if_neg hd] at hm ⊢
        by_cases hmd : m ∈ insert user dom
        · rcases Finset.mem_insert.mp hmd with rfl | hmd
          · exact process_users_queue_subset skip us _ _ m (List.mem_cons_self m queue)
          · exact absurd hmd hnot
        · exact ih _ _ m hm hmd

theorem process_users_measure (skip : ℕ → Bool) (us : List ℕ) (univ : Finset ℕ)
    (hus : ∀ u ∈ us, u ∈ univ) :
    ∀ queue dom,
      (process_users skip us queue dom).1.length +
        (univ \ (process_users skip us queue dom).2).card ≤
      queue.length + (univ \ dom).card := by
  induction us with
  | nil => intro queue dom; simp [process_users]
  | cons user us ih =>
    intro queue dom
    have hus' : ∀ u ∈ us, u ∈ univ := fun u hu => hus u (List.mem_cons_of_mem user hu)
    simp only [process_users]
    split
    · exact ih hus' queue dom
    · split
      · exact ih hus' queue dom
      · refine le_trans (ih hus' (user :: queue) (insert user dom)) ?_
        have huser : user ∈ univ \ dom := by
          refine Finset.mem_sdiff.mpr ⟨hus user (List.mem_cons_self _ _), by assumption⟩
        have hins : univ \ insert user dom = (univ \ dom).erase user := by
          ext x
          simp only [Finset.mem_sdiff, Finset.mem_insert, Finset.mem_erase]
          tauto
        rw [hins, List.length_cons,
          Finset.card_erase_of_mem huser]
        have hpos : 0 < (univ \ dom).card := Finset.card_pos.mpr ⟨user, huser⟩
        omega

end OptInd

namespace OptInd

theorem dominated_loop_sound (users : ℕ → List ℕ) (skip : ℕ → Bool)
    (P : ℕ → Prop) (hP : ∀ m, P m → ∀ u ∈ users m, skip u = false → P u) :
    ∀ (fuel : ℕ) (queue : List ℕ) (dom : Finset ℕ),
      (∀ m ∈ dom, P m) → (∀ m ∈ queue, m ∈ dom) →
      ∀ m ∈ dominated_loop users skip fuel queue dom, P m := by
  intro fuel
  induction fuel with
  | zero => intro queue dom hdom _ m hm; exact hdom m hm
  | succ fuel ih =>
    intro queue dom hdom hqd m hm
    match queue with
    | [] => exact hdom m hm
    | node :: queue =>
      simp only [dominated_loop] at hm
      have hnode : P node := hdom node (hqd node (List.mem_cons_self _ _))
      refine ih _ _ ?_ ?_ m hm
      · intro x hx
        rcases process_users_mem_cases skip (users node) queue dom x hx with h | h
        · exact hdom x h
        · exact hP node hnode x h.1 h.2
      · intro x hx
        exact process_users_queue_in_dom skip (users node) queue dom
          (fun y hy => hqd y (List.mem_cons_of_mem node hy)) x hx

theorem dominated_loop_complete (users : ℕ → List ℕ) (skip : ℕ → Bool)
    (univ : Finset ℕ) (huniv : ∀ n ∈ univ, ∀ u ∈ users n, u ∈ univ) :
    ∀ (fuel : ℕ) (queue : List ℕ) (dom : Finset ℕ),
      queue.length + (univ \ dom).card ≤ fuel →
      (∀ m ∈ queue, m ∈ dom) →
      (∀ m ∈ dom, m ∈ univ) →
      (∀ m ∈ dom, m ∉ queue → ∀ u ∈ users m, skip u = false → u ∈ dom) →
      dom ⊆ dominated_loop users skip fuel queue dom ∧
      (∀ m ∈ dominated_loop users skip fuel queue dom, ∀ u ∈ users m,
        skip u = false → u ∈ dominated_loop users skip fuel queue dom) := by
  intro fuel
  induction fuel with
  | zero =>
    intro queue dom hfuel hqd hdu hclosed
    have hq : queue = [] := List.length_eq_zero.mp (by omega)
    subst hq
    exact ⟨Finset.Subset.refl dom, fun m hm u hu hsk =>
      hclosed m hm (List.not_mem_nil m) u hu hsk⟩
  | succ fuel ih =>
    intro queue dom hfuel hqd hdu hclosed
    match queue with
    | [] =>
      exact ⟨Finset.Subset.refl dom, fun m hm u hu hsk =>
        hclosed m hm (List.not_mem_nil m) u hu hsk⟩
    | node :: queue =>
      simp only [dominated_loop]
      have hqd' : ∀ m ∈ queue, m ∈ dom := fun m hm => hqd m (List.mem_cons_of_mem node hm)
      have hnode : node ∈ dom := hqd node (List.mem_cons_self _ _)
      have husers : ∀ u ∈ users node, u ∈ univ := huniv node (hdu node hnode)
      have hmeas := process_users_measure skip (users node) univ husers queue dom
      have hsub := process_users_dom_subset skip (users node) queue dom
      obtain ⟨h1, h2⟩ := ih (process_users skip (users node) queue dom).1
        (process_users skip (users node) queue dom).2
        (by simp only [List.length_cons] at hfuel; omega)
        (process_users_queue_in_dom skip (users node) queue dom hqd')
        (fun m hm => by
          rcases process_users_mem_cases skip (users node) queue dom m hm with h | h
          · exact hdu m h
          · exact husers m h.1)
        (fun m hm hmq u hu hsk => by
          rcases process_users_mem_cases skip (users node) queue dom m hm with hmdom | hnew
          · by_cases hmn : m = node
            · rw [hmn] at hu
              exact process_users_covers skip (users node) queue dom u hu hsk
            · have hmq' : m ∉ queue := fun hc =>
                hmq (process_users_queue_subset skip (users node) queue dom m hc)
              have : u ∈ dom :=
                hclosed m hmdom (fun hc => by
                  rcases List.mem_cons.mp hc with hc | hc
                  · exact hmn hc
                  · exact hmq' hc) u hu hsk
              exact hsub this
          · by_cases hmdom : m ∈ dom
            · by_cases hmn : m = node
              · rw [hmn] at hu
                exact process_users_covers skip (users node) queue dom u hu hsk
              · have hmq' : m ∉ queue := fun hc =>
                  hmq (process_users_queue_subset skip (users node) queue dom m hc)
                exact hsub (hclosed m hmdom (fun hc => by
                  rcases List.mem_cons.mp hc with hc | hc
                  · exact hmn hc
                  · exact hmq' hc) u hu hsk)
            · exact absurd (process_users_new_queued skip (users node) queue dom m hm hmdom) hmq)
      exact ⟨subset_trans hsub h1, h2⟩

/-- `dominated_nodes` membership characterization: exactly the nodes
reachable from the initial queue along consumer edges through non-skipped
users. -/
theorem dominated_nodes_mem (g : FxGraph) (skip : ℕ → Bool)
    (initial_queue : List ℕ) (hinits : ∀ n ∈ initial_queue, n ∈ g.nodes) :
    ∀ m, m ∈ dominated_nodes g skip initial_queue ↔
      ∃ n ∈ initial_queue, Reaches g.users skip n m := by
  intro m
  constructor
  · intro hm
    refine dominated_loop_sound g.users skip
      (fun x => ∃ n ∈ initial_queue, Reaches g.users skip n x) ?_ _ _ _ ?_ ?_ m hm
    · rintro x ⟨n, hn, hr⟩ u hu hsk
      exact ⟨n, hn, Reaches.step hr hu hsk⟩
    · intro x hx
      exact ⟨x, List.mem_toFinset.mp hx, Reaches.refl x⟩
    · intro x hx
      exact List.mem_toFinset.mpr hx
  · rintro ⟨n, hn, hr⟩
    have huniv : ∀ x ∈ g.nodes.toFinset, ∀ u ∈ g.users x, u ∈ g.nodes.toFinset :=
      fun x hx u hu => List.mem_toFinset.mpr
        (g.users_wf x (List.mem_toFinset.mp hx) u hu)
    have hcard : (g.nodes.toFinset \ initial_queue.toFinset).card ≤ g.nodes.length := by
      calc (g.nodes.toFinset \ initial_queue.toFinset).card
          ≤ g.nodes.toFinset.card := Finset.card_le_card (Finset.sdiff_subset)
        _ ≤ g.nodes.length := g.nodes.toFinset_card_le
    obtain ⟨h1, h2⟩ := dominated_loop_complete g.users skip g.nodes.toFinset huniv
      (initial_queue.length + g.nodes.length) initial_queue initial_queue.toFinset
      (by omega)
      (fun x hx => List.mem_toFinset.mpr hx)
      (fun x hx => List.mem_toFinset.mpr (hinits x (List.mem_toFinset.mp hx)))
      (fun x hx hxq => absurd (List.mem_toFinset.mp hx) hxq)
    clear hcard huniv
    induction hr with
    | refl => exact h1 (List.mem_toFinset.mpr hn)
    | step hr hu hsk ihr => exact h2 _ ihr _ hu hsk

/-- A node of a skip-filtered dominated set is the initial node itself or is
not skipped (the traversal never enters a skipped node). -/
theorem dominated_nodes_skipped (g : FxGraph) (skip : ℕ → Bool) (c : ℕ) :
    ∀ u ∈ dominated_nodes g skip [c], u = c ∨ skip u = false := by
  intro u hu
  have := dominated_loop_sound g.users skip
    (fun x => Reaches g.users skip c x) (fun x hx v hv hsk => Reaches.step hx hv hsk)
    _ _ _ (by
      intro x hx
      simp only [List.toFinset_cons, List.toFinset_nil, insert_emptyc_eq,
        Finset.mem_singleton] at hx
      subst hx
      exact Reaches.refl x)
    (by
      intro x hx
      rcases List.mem_singleton.mp hx with rfl
      simp) u hu
  cases this with
  | refl => exact Or.inl rfl
  | step _ _ hsk => exact Or.inr hsk

end OptInd

namespace OptInd

/-! ## Frame lemmas of the mutation surface -/

theorem try_to_reduce_precision_other (g : FxGraph) (ctx : EngineCtx)
    (args : ℕ → List GArg) (node m : ℕ) (hm : m ≠ node) :
    try_to_reduce_precision g ctx args node m = args m := by
  unfold try_to_reduce_precision
  split
  · simp [hm]
  · rfl

theorem run_foldl_frame (g : FxGraph) (ctx : EngineCtx) (l : List ℕ) (n : ℕ)
    (hn : n ∉ l) :
    ∀ args : ℕ → List GArg,
      (l.foldl (fun a node => try_to_reduce_precision g ctx a node) args) n = args n := by
  induction l with
  | nil => intro args; rfl
  | cons c l ih =>
    intro args
    simp only [List.foldl_cons]
    rw [ih (fun hc => hn (List.mem_cons_of_mem c hc))]
    exact try_to_reduce_precision_other g ctx args c n
      (fun hc => hn (hc ▸ List.mem_cons_self c l))

/-! ## Example graphs used to instantiate the theorems -/

/-- A trivially inert engine context. -/
def exCtx : EngineCtx where
  indirect_vars := fun i => i
  index_indirect_deps := []
  replacement_vals := fun _ => ⟨.ninf, .pinf⟩
  interp_env := fun _ => ⟨.ninf, .pinf⟩

/-- `load (0) → to_dtype int64 (1)`: an int64 cast directly dominated by a
load. -/
def exG1 : FxGraph where
  nodes := [0, 1]
  target := fun n => if n = 0 then .load else .to_dtype
  users := fun n => if n = 0 then [1] else []
  nodup := by decide
  users_wf := by decide

def exArgs1 : ℕ → List GArg :=
  fun n => if n = 1 then [.misc 0, .misc 1, .dt .int64] else []

/-- `to_dtype int64 (0) → to_dtype float16 (1) → load (2)`: the only
downstream path of the candidate re-casts to float16 before the unbounded
load. -/
def exG2 : FxGraph where
  nodes := [0, 1, 2]
  target := fun n => if n = 2 then .load else .to_dtype
  users := fun n => if n = 0 then [1] else if n = 1 then [2] else []
  nodup := by decide
  users_wf := by decide

def exArgs2 : ℕ → List GArg :=
  fun n =>
    if n = 0 then [.misc 0, .misc 1, .dt .int64]
    else if n = 1 then [.misc 0, .misc 1, .dt .float16]
    else []

/-- Interpretation leaves the load unbounded and everything else small. -/
def exCtx2 : EngineCtx where
  indirect_vars := fun i => i
  index_indirect_deps := []
  replacement_vals := fun _ => ⟨.ninf, .pinf⟩
  interp_env := fun n => if n = 2 then ⟨.ninf, .pinf⟩ else ⟨.intv 0, .intv 5⟩

/-- `to_dtype int64 (0) → to_dtype float32 (1) → load (2)`: like `exG2` but
the re-cast is to float32, which the skip filter does prune. -/
def exG3 : FxGraph where
  nodes := [0, 1, 2]
  target := fun n => if n = 2 then .load else .to_dtype
  users := fun n => if n = 0 then [1] else if n = 1 then [2] else []
  nodup := by decide
  users_wf := by decide

def exArgs3 : ℕ → List GArg :=
  fun n =>
    if n = 0 then [.misc 0, .misc 1, .dt .int64]
    else if n = 1 then [.misc 0, .misc 1, .dt .float32]
    else []

def exCtx3 : EngineCtx where
  indirect_vars := fun i => i
  index_indirect_deps := []
  replacement_vals := fun _ => ⟨.ninf, .pinf⟩
  interp_env := fun n => if n = 2 then ⟨.ninf, .pinf⟩ else ⟨.intv 0, .intv 5⟩

/-! ## Claim C1 -/

/-- C1: every `to_dtype` node casting to int64 that lies in the
forward-reachable closure (via consumer edges) of a `load`, `reduction` or
masked-subblock node is excluded from the candidate set of `run`, and its
third argument still carries `torch.int64` after `run` completes (for any
interpretation outcome `ctx`). -/
theorem tensor_dominated_int64_cast_never_narrowed (g : FxGraph)
    (ctx : EngineCtx) (args : ℕ → List GArg) (s n : ℕ)
    (hs : s ∈ g.nodes) (hsrc : is_tensor_source g s = true)
    (hreach : Reaches g.users (fun _ => false) s n)
    (_htgt : g.target n = .to_dtype)
    (hdt : third_arg args n = some (.dt .int64)) :
    n ∉ int64_dtype_nodes g args ∧
    third_arg (run g ctx args) n = some (.dt .int64) := by
  have hinits : ∀ x ∈ g.nodes.filter (is_tensor_source g), x ∈ g.nodes :=
    fun x hx => (List.mem_filter.mp hx).1
  have htvs : n ∈ tensor_values_set g := by
    refine (dominated_nodes_mem g (fun _ => false) _ hinits n).mpr ?_
    exact ⟨s, List.mem_filter.mpr ⟨hs, hsrc⟩, hreach⟩
  have hnot : n ∉ int64_dtype_nodes g args := by
    intro hc
    have := (List.mem_filter.mp hc).2
    simp only [Bool.and_eq_true, decide_eq_true_eq] at this
    exact this.2 htvs
  refine ⟨hnot, ?_⟩
  unfold run third_arg
  rw [run_foldl_frame g ctx _ n hnot args]
  exact hdt

/-- C1 witness: in `exG1` the int64 cast (node 1) is a direct user of the
load (node 0); it is not a candidate and keeps its int64 argument. -/
theorem tensor_dominated_int64_cast_never_narrowed_witness :
    1 ∉ int64_dtype_nodes exG1 exArgs1 ∧
    third_arg (run exG1 exCtx exArgs1) 1 = some (.dt .int64) :=
  tensor_dominated_int64_cast_never_narrowed exG1 exCtx exArgs1 0 1
    (by decide) (by decide)
    (Reaches.step (Reaches.refl 0) (by decide) rfl)
    (by decide) (by decide)

/-! ## Claim C10 -/

/-- C10: `try_to_reduce_precision` is atomic and frame-preserving: when some
dominated member fails its check it returns with no modification at all;
when every member passes, it rewrites exactly the candidate's third argument
to int32, leaving the candidate's other arguments and every other node's
args unchanged. -/
theorem try_to_reduce_precision_atomic (g : FxGraph) (ctx : EngineCtx)
    (args : ℕ → List GArg) (node : ℕ) :
    (¬ (∀ d ∈ dominated_nodes g (skip_filter g args) [node],
          dominated_ok g ctx d = true) →
      try_to_reduce_precision g ctx args node = args) ∧
    ((∀ d ∈ dominated_nodes g (skip_filter g args) [node],
          dominated_ok g ctx d = true) →
      try_to_reduce_precision g ctx args node node = (args node).set 2 (.dt .int32) ∧
      (∀ m, m ≠ node → try_to_reduce_precision g ctx args node m = args m) ∧
      (∀ i, i ≠ 2 →
        (try_to_reduce_precision g ctx args node node)[i]? = (args node)[i]?)) := by
  constructor
  · intro h
    unfold try_to_reduce_precision
    rw [if_neg h]
  · intro h
    have heq : try_to_reduce_precision g ctx args node node = (args node).set 2 (.dt .int32) := by
      unfold try_to_reduce_precision
      rw [if_pos h]
      simp
    refine ⟨heq, fun m hm => try_to_reduce_precision_other g ctx args node m hm, ?_⟩
    intro i hi
    rw [heq]
    exact List.getElem?_set_ne (fun hc => hi hc.symm)

/-- C10 witness: on `exG2` a failing check leaves the args map untouched;
on `exG3` all checks pass and exactly the candidate's third argument is
rewritten. -/
theorem try_to_reduce_precision_atomic_witness :
    try_to_reduce_precision exG2 exCtx2 exArgs2 0 = exArgs2 ∧
    try_to_reduce_precision exG3 exCtx3 exArgs3 0 0 = (exArgs3 0).set 2 (.dt .int32) :=
  ⟨(try_to_reduce_precision_atomic exG2 exCtx2 exArgs2 0).1 (by decide),
   ((try_to_reduce_precision_atomic exG3 exCtx3 exArgs3 0).2 (by decide)).1⟩

/-! ## Claim C2 -/

/-- C2 counterexample: the skip filter does not treat a cast to
`torch.float16` as precision-re-establishing.  In `exG2` the candidate
(node 0) has a single consumer chain `0 → 1 → 2` whose intermediate node 1
is a cast to float16 — a floating-point dtype — standing before the
unbounded load; the claim then requires node 0 to be narrowed.  But the
traversal walks straight through node 1 (it lands in the dominated set),
reaches the load, and `run` leaves node 0 at int64. -/
theorem skip_filter_float16_counterexample :
    exG2.target 1 = .to_dtype ∧
    third_arg exArgs2 1 = some (.dt .float16) ∧
    DType.is_floating_point .float16 = true ∧
    exG2.users 0 = [1] ∧ exG2.users 1 = [2] ∧ exG2.users 2 = [] ∧
    1 ∈ dominated_nodes exG2 (skip_filter exG2 exArgs2) [0] ∧
    0 ∈ int64_dtype_nodes exG2 exArgs2 ∧
    third_arg (run exG2 exCtx2 exArgs2) 0 = some (.dt .int64) := by
  decide

/-- C2 (amended): traversal of a candidate's dominated set is pruned exactly
at nodes that are casts to int32, float32 or float64 (not float16 or
bfloat16): every member other than the candidate itself fails that filter.
Consequently, when every member of the pruned dominated set passes its
check — in particular when each downstream path re-casts to int32/float32/
float64 before reaching any node whose range fails 32-bit expressibility —
the candidate's third argument is rewritten to int32. -/
theorem skip_filter_prunes_and_narrows (g : FxGraph) (ctx : EngineCtx)
    (args : ℕ → List GArg) (c : ℕ) (hlen : 2 < (args c).length) :
    (∀ u ∈ dominated_nodes g (skip_filter g args) [c],
        u = c ∨ skip_filter g args u = false) ∧
    ((∀ d ∈ dominated_nodes g (skip_filter g args) [c],
        dominated_ok g ctx d = true) →
      third_arg (try_to_reduce_precision g ctx args c) c = some (.dt .int32)) := by
  refine ⟨dominated_nodes_skipped g (skip_filter g args) c, ?_⟩
  intro h
  unfold try_to_reduce_precision third_arg
  rw [if_pos h]
  simp only [eq_self_iff_true, if_true]
  rw [List.getElem?_set_self (by omega)]

/-- C2 witness: in `exG3` the float32 re-cast (node 1) prunes the traversal,
so the unbounded load behind it is never examined and the candidate is
narrowed to int32. -/
theorem skip_filter_prunes_and_narrows_witness :
    (∀ u ∈ dominated_nodes exG3 (skip_filter exG3 exArgs3) [0],
        u = 0 ∨ skip_filter exG3 exArgs3 u = false) ∧
    third_arg (try_to_reduce_precision exG3 exCtx3 exArgs3 0) 0 = some (.dt .int32) :=
  ⟨(skip_filter_prunes_and_narrows exG3 exCtx3 exArgs3 0 (by decide)).1,
   (skip_filter_prunes_and_narrows exG3 exCtx3 exArgs3 0 (by decide)).2 (by decide)⟩

end OptInd

namespace OptInd

/-! ## Claim C3 -/

theorem mono_or_anti_between {α β : Type} [LinearOrder α] [LinearOrder β]
    {f : α → β} (hf : Monotone f ∨ Antitone f) {a b v : α}
    (h1 : a ≤ v) (h2 : v ≤ b) :
    min (f a) (f b) ≤ f v ∧ f v ≤ max (f a) (f b) := by
  cases hf with
  | inl h => exact ⟨le_trans (min_le_left _ _) (h h1), le_trans (h h2) (le_max_right _ _)⟩
  | inr h => exact ⟨le_trans (min_le_right _ _) (h h2), le_trans (h h1) (le_max_left _ _)⟩

/-- C3 counterexample: `checked_unary_map` is not sound for an arbitrary
function.  With `fn q = q * q` on the range `[-1, 1]`, the concrete input 0
lies in the range, but `fn 0 = 0` falls outside the returned range `[1, 1]`,
so the claim's "checked_unary_map with any function" conjunct fails. -/
theorem checked_unary_map_unsound_counterexample :
    (⟨-1, 1⟩ : ValueRanges ℚ).lower ≤ 0 ∧ ((0 : ℚ) ≤ (⟨-1, 1⟩ : ValueRanges ℚ).upper) ∧
    ¬ (ValueRanges.checked_unary_map (⟨-1, 1⟩ : ValueRanges ℚ)
        (fun q => q * q)).between ((fun q : ℚ => q * q) 0) := by
  refine ⟨by norm_num, by norm_num, ?_⟩
  intro hc
  simp only [ValueRanges.checked_unary_map, ValueRanges.unary_map,
    ValueRanges.between] at hc
  norm_num at hc

/-- C3 (amended): each lattice combinator is sound under the monotonicity
discipline its call sites observe — `unary_map` for a non-decreasing
function; `checked_unary_map` for a function monotone in either direction
(not an arbitrary function); `binary_map` for a function monotone in the
same direction in both arguments; `binary_map_products` for a function
monotone, in either direction independently, in each argument separately
(not an arbitrary function): for all concrete scalar inputs drawn pointwise
from the argument ranges, the underlying scalar function's value lies
between the lower and upper bound of the returned range. -/
theorem combinators_sound {α β : Type} [LinearOrder α] [LinearOrder β]
    (fnu : α → β) (fnb : α → α → β) :
    (Monotone fnu →
      ∀ (x : ValueRanges α) (v : α), x.lower ≤ v → v ≤ x.upper →
        (x.unary_map fnu).between (fnu v)) ∧
    (Monotone fnu ∨ Antitone fnu →
      ∀ (x : ValueRanges α) (v : α), x.lower ≤ v → v ≤ x.upper →
        (x.checked_unary_map fnu).between (fnu v)) ∧
    (((∀ y, Monotone fun a => fnb a y) ∧ (∀ a, Monotone (fnb a))) ∨
      ((∀ y, Antitone fun a => fnb a y) ∧ (∀ a, Antitone (fnb a))) →
      ∀ (x y : ValueRanges α) (vx vy : α), x.lower ≤ vx → vx ≤ x.upper →
        y.lower ≤ vy → vy ≤ y.upper →
        (x.binary_map y fnb).between (fnb vx vy)) ∧
    ((∀ y, Monotone (fun a => fnb a y) ∨ Antitone fun a => fnb a y) →
      (∀ a, Monotone (fnb a) ∨ Antitone (fnb a)) →
      ∀ (x y : ValueRanges α) (vx vy : α), x.lower ≤ vx → vx ≤ x.upper →
        y.lower ≤ vy → vy ≤ y.upper →
        (x.binary_map_products y fnb).between (fnb vx vy)) := by
  refine ⟨?_, ?_, ?_, ?_⟩
  · intro hm x v h1 h2
    exact mono_or_anti_between (Or.inl hm) h1 h2
  · intro hm x v h1 h2
    have h := mono_or_anti_between hm h1 h2
    exact ⟨le_trans (min_le_left _ _) h.1, le_trans h.2 (le_max_right _ _)⟩
  · rintro (⟨hx, hy⟩ | ⟨hx, hy⟩) x y vx vy h1 h2 h3 h4
    · refine ⟨le_trans (min_le_left _ _) ?_, le_trans ?_ (le_max_right _ _)⟩
      · exact le_trans (hy x.lower h3) (hx vy h1)
      · exact le_trans (hy vx h4) (hx y.upper h2)
    · refine ⟨le_trans (min_le_right _ _) ?_, le_trans ?_ (le_max_left _ _)⟩
      · exact le_trans (hx y.upper h2) (hy vx h4)
      · exact le_trans (hx vy h1) (hy x.lower h3)
  · intro hx hy x y vx vy h1 h2 h3 h4
    have hv := mono_or_anti_between (f := fun a => fnb a vy) (hx vy) h1 h2
    have hl := mono_or_anti_between (f := fnb x.lower) (hy x.lower) h3 h4
    have hu := mono_or_anti_between (f := fnb x.upper) (hy x.upper) h3 h4
    have e1 : (x.binary_map_products y fnb).lower ≤ fnb x.lower y.lower :=
      le_trans (min_le_left _ _) (le_trans (min_le_left _ _) (min_le_left _ _))
    have e2 : (x.binary_map_products y fnb).lower ≤ fnb x.lower y.upper :=
      le_trans (min_le_left _ _) (le_trans (min_le_left _ _) (min_le_right _ _))
    have e3 : (x.binary_map_products y fnb).lower ≤ fnb x.upper y.lower :=
      le_trans (min_le_left _ _) (min_le_right _ _)
    have e4 : (x.binary_map_products y fnb).lower ≤ fnb x.upper y.upper :=
      min_le_right _ _
    have f1 : fnb x.lower y.lower ≤ (x.binary_map_products y fnb).upper :=
      le_trans (le_trans (le_max_left _ _) (le_max_left _ _)) (le_max_left _ _)
    have f2 : fnb x.lower y.upper ≤ (x.binary_map_products y fnb).upper :=
      le_trans (le_trans (le_max_right _ _) (le_max_left _ _)) (le_max_left _ _)
    have f3 : fnb x.upper y.lower ≤ (x.binary_map_products y fnb).upper :=
      le_trans (le_max_right _ _) (le_max_left _ _)
    have f4 : fnb x.upper y.upper ≤ (x.binary_map_products y fnb).upper :=
      le_max_right _ _
    refine ⟨le_trans (min_le_left _ _) ?_, le_trans ?_ (le_max_right _ _)⟩
    · refine le_trans (le_min ?_ ?_) hv.1
      · exact le_trans (le_min e1 e2) hl.1
      · exact le_trans (le_min e3 e4) hu.1
    · refine le_trans hv.2 (max_le ?_ ?_)
      · exact le_trans hl.2 (max_le f1 f2)
      · exact le_trans hu.2 (max_le f3 f4)

/-- C3 witness: the amended soundness theorem applied at concrete rational
ranges, with the identity (monotone) and addition (monotone in both
arguments, and in each argument separately). -/
theorem combinators_sound_witness :
    ((ValueRanges.unary_map (⟨0, 3⟩ : ValueRanges ℚ) id).between (id 1)) ∧
    ((ValueRanges.checked_unary_map (⟨0, 3⟩ : ValueRanges ℚ) id).between (id 1)) ∧
    ((ValueRanges.binary_map (⟨0, 3⟩ : ValueRanges ℚ) ⟨1, 2⟩
        (fun a b => a + b)).between ((fun a b : ℚ => a + b) 1 2)) ∧
    ((ValueRanges.binary_map_products (⟨0, 3⟩ : ValueRanges ℚ) ⟨1, 2⟩
        (fun a b => a + b)).between ((fun a b : ℚ => a + b) 1 2)) := by
  obtain ⟨h1, h2, h3, h4⟩ := combinators_sound (id : ℚ → ℚ) (fun a b : ℚ => a + b)
  have hmono1 : ∀ y : ℚ, Monotone fun a : ℚ => a + y :=
    fun y a b hab => add_le_add_right hab y
  have hmono2 : ∀ a : ℚ, Monotone fun b : ℚ => a + b :=
    fun a b c hbc => add_le_add_left hbc a
  refine ⟨h1 monotone_id ⟨0, 3⟩ 1 (by norm_num) (by norm_num),
    h2 (Or.inl monotone_id) ⟨0, 3⟩ 1 (by norm_num) (by norm_num),
    h3 (Or.inl ⟨hmono1, hmono2⟩) ⟨0, 3⟩ ⟨1, 2⟩ 1 2
      (by norm_num) (by norm_num) (by norm_num) (by norm_num),
    h4 (fun y => Or.inl (hmono1 y)) (fun a => Or.inl (hmono2 a)) ⟨0, 3⟩ ⟨1, 2⟩ 1 2
      (by norm_num) (by norm_num) (by norm_num) (by norm_num)⟩

end OptInd

namespace OptInd

/-! ## Claim C4 -/

/-- C4: the 32-bit expressibility predicate holds of an integer value iff it
lies in the signed 32-bit range (`2^31 - 1` is expressible, `2^31` is not),
holds of a float value iff its magnitude is at most `2^24` (`2^24` is
expressible, `2^24 + 1` is not), and holds of a range iff it holds of both
bounds. -/
theorem expressable_in_32_bits_characterization :
    (∀ n : ℤ, val_expressable_in_32_bits (.intv n) = true ↔
      -(2 ^ 31) ≤ n ∧ n ≤ 2 ^ 31 - 1) ∧
    val_expressable_in_32_bits (.intv (2 ^ 31 - 1)) = true ∧
    val_expressable_in_32_bits (.intv (2 ^ 31)) = false ∧
    (∀ q : ℚ, val_expressable_in_32_bits (.floatv q) = true ↔ |q| ≤ 2 ^ 24) ∧
    val_expressable_in_32_bits (.floatv (2 ^ 24)) = true ∧
    val_expressable_in_32_bits (.floatv (2 ^ 24 + 1)) = false ∧
    (∀ r : VRange, range_expressable_in_32_bits r = true ↔
      val_expressable_in_32_bits r.lower = true ∧
        val_expressable_in_32_bits r.upper = true) := by
  refine ⟨?_, by decide, by decide, ?_, by norm_num [val_expressable_in_32_bits],
    by norm_num [val_expressable_in_32_bits], ?_⟩
  · intro n
    simp only [val_expressable_in_32_bits, Bool.and_eq_true, decide_eq_true_eq]
    exact and_comm
  · intro q
    simp only [val_expressable_in_32_bits, Bool.and_eq_true, decide_eq_true_eq,
      abs_le]
    exact and_comm
  · intro r
    simp only [range_expressable_in_32_bits, Bool.and_eq_true]

/-! ## Claim C7 -/

/-- C7: evaluation of `to_dtype` at the failing input.  The spec says a
range whose bounds are not both boolean-valued passes through unchanged, but
on `(sympy.true, sympy.Integer(5))` with an integer target the code's
`is_bool(up)` consults the captured `low` instead of `up`, the assert
passes, and the range collapses to `{0, 1}` instead of passing through. -/
theorem to_dtype_is_bool_closure_bug :
    ValueRangeAnalysis.to_dtype ⟨.symbool true, .symint 5⟩ .int64 =
      some ⟨.symint 0, .symint 1⟩ ∧
    (⟨.symbool true, .symint 5⟩ : PVRange) ≠ ⟨.symint 0, .symint 1⟩ ∧
    ValueRangeAnalysis.to_dtype_is_bool (.symbool true) (.symint 5) = true ∧
    PyVal.is_Boolean (.symint 5) = false := by
  decide

/-! ## Claim C8 -/

/-- C8: the `constant` transfer function maps the NaN float literal to the
fully unbounded range and every non-NaN literal to its degenerate range — as a
sympy Integer for an int literal, as a sympy Float otherwise. -/
theorem constant_transfer_characterization :
    (∀ d : DType, ValueRangeAnalysis.constant .pnan d = ⟨.ninf, .pinf⟩) ∧
    (∀ (n : ℤ) (d : DType),
      ValueRangeAnalysis.constant (.pint n) d = ⟨.intv n, .intv n⟩) ∧
    (∀ (q : ℚ) (d : DType),
      ValueRangeAnalysis.constant (.pfloat q) d = ⟨.floatv q, .floatv q⟩) :=
  ⟨fun _ => rfl, fun _ _ => rfl, fun _ _ => rfl⟩

/-! ## Claim C9 -/

/-- C9: any opcode name that is neither an installed boolean operator nor an
explicit method resolves through `__getattr__` to the default handler, which
returns the fully unbounded range for any arguments; no unrecognized opcode
is a hard failure. -/
theorem unrecognized_opcode_defaults (name : String)
    (h1 : name ∉ boolean_operators) (h2 : name ∉ explicit_methods) :
    getattr_dispatch name = .fallback ∧
    (∀ args : List VRange, default_handler args = ⟨.ninf, .pinf⟩) := by
  refine ⟨?_, fun _ => rfl⟩
  unfold getattr_dispatch
  rw [if_neg h1, if_neg h2]

/-- C9 witness: the opcode `"sin"` is not in the semantics table and falls
back to the unbounded default. -/
theorem unrecognized_opcode_defaults_witness :
    getattr_dispatch "sin" = .fallback ∧
    (∀ args : List VRange, default_handler args = ⟨.ninf, .pinf⟩) :=
  unrecognized_opcode_defaults "sin" (by decide) (by decide)

end OptInd

namespace OptInd

/-! ## Claim C5 -/

theorem seed_fold_not_mem (l : List (ℕ × ℤ)) :
    ∀ (init : ℕ → Option SRange) (k : ℕ), k ∉ l.map Prod.fst →
      (l.foldl (fun tbl kv => replace_indirect tbl kv.1 ⟨.val 0, .val kv.2⟩) init) k
        = init k := by
  induction l with
  | nil => intro init k _; rfl
  | cons a l ih =>
    intro init k hk
    simp only [List.map_cons, List.mem_cons] at hk
    push_neg at hk
    simp only [List.foldl_cons]
    rw [ih _ k hk.2]
    unfold replace_indirect
    rw [if_neg hk.1]

theorem seed_fold_mem (l : List (ℕ × ℤ)) :
    ∀ (init : ℕ → Option SRange) (k : ℕ) (E : ℤ),
      (l.map Prod.fst).Nodup → (k, E) ∈ l →
      (l.foldl (fun tbl kv => replace_indirect tbl kv.1 ⟨.val 0, .val kv.2⟩) init) k
        = some ⟨.val 0, .val E⟩ := by
  induction l with
  | nil => intro _ _ _ _ hmem; exact absurd hmem (List.not_mem_nil _)
  | cons a l ih =>
    intro init k E hnodup hmem
    simp only [List.map_cons, List.nodup_cons] at hnodup
    simp only [List.foldl_cons]
    rcases List.mem_cons.mp hmem with rfl | hmem
    · rw [seed_fold_not_mem l _ k hnodup.1]
      unfold replace_indirect
      rw [if_pos rfl]
    · exact ih _ k E hnodup.2 hmem

/-- C5 counterexample: the replacement table is seeded with
`ValueRanges(0, E)` — the upper bound is the extent `E` itself, so the
seeded range, read as an interval, contains `E` and is not the half-open
`[0, E)`; and with a single index of extent 100, the solver resolves
`index * 4` to maximum value 400, not 396. -/
theorem seeding_closed_range_counterexample :
    seed_replacement_vals [(0, 100)] 0 = some ⟨.val 0, .val 100⟩ ∧
    ¬ ((100 : ℤ) < 100) ∧
    (get_index_impl (.mul (.varE 0) (.const 4)) fun _ => (0, 100)) =
      ⟨.val 0, .val 400⟩ ∧
    (400 : ℤ) ≠ 396 := by
  refine ⟨?_, by norm_num, ?_, by norm_num⟩
  · rfl
  · decide

/-- C5 (amended): for every loop index variable with static extent `E` in
`indices_ranges` (keys distinct, as `dict.items()` yields), the replacement
table is seeded with `ValueRanges(0, E)` — the closed range `[0, E]` whose
upper bound is `E` itself — so with a single index of extent 100 the
expression `index * 4` resolves to maximum value 400. -/
theorem seeding_gives_zero_to_extent (indices_ranges : List (ℕ × ℤ))
    (k : ℕ) (E : ℤ) (hnodup : (indices_ranges.map Prod.fst).Nodup)
    (hmem : (k, E) ∈ indices_ranges) :
    seed_replacement_vals indices_ranges k = some ⟨.val 0, .val E⟩ ∧
    (get_index_impl (.mul (.varE 0) (.const 4)) fun _ => (0, 100)) =
      ⟨.val 0, .val 400⟩ := by
  refine ⟨?_, by decide⟩
  unfold seed_replacement_vals
  exact seed_fold_mem indices_ranges _ k E hnodup hmem

/-- C5 witness: the amended seeding theorem at the concrete table
`{index0 ↦ 100}`. -/
theorem seeding_gives_zero_to_extent_witness :
    seed_replacement_vals [(0, 100)] 0 = some ⟨.val 0, .val 100⟩ ∧
    (get_index_impl (.mul (.varE 0) (.const 4)) fun _ => (0, 100)) =
      ⟨.val 0, .val 400⟩ :=
  seeding_gives_zero_to_extent [(0, 100)] 0 100 (by decide) (by decide)

/-! ## Claim C6 -/

/-- C6: the solver returns the degenerate range of a closed expression; when
every free symbol's derivative sign is established (`is_positive` decided),
the maximum substitutes each increasing symbol's upper bound and each other
classified symbol's lower bound from the replacement table, and the minimum
the opposite; when any free symbol's derivative sign cannot be established,
the solver returns the fully unbounded range. -/
theorem get_index_impl_characterization (e : IExpr) (table : ℕ → ℤ × ℤ) :
    (e.free_symbols = ∅ →
      get_index_impl e table =
        ⟨.val (e.eval fun _ => 0), .val (e.eval fun _ => 0)⟩) ∧
    (e.free_symbols ≠ ∅ →
      (∀ s ∈ e.free_symbols, (e.diff s).is_positive ≠ none) →
      get_index_impl e table =
        ⟨.val (e.eval fun k =>
            if k ∈ monotonic_increasing e then (table k).1 else (table k).2),
         .val (e.eval fun k =>
            if k ∈ monotonic_increasing e then (table k).2 else (table k).1)⟩) ∧
    ((∃ s ∈ e.free_symbols, (e.diff s).is_positive = none) →
      get_index_impl e table = ⟨.ninf, .pinf⟩) := by
  refine ⟨?_, ?_, ?_⟩
  · intro h
    unfold get_index_impl
    rw [if_pos h]
  · intro h1 h2
    have hother : other_symbols e = ∅ := by
      unfold other_symbols
      rw [Finset.filter_eq_empty_iff]
      exact h2
    unfold get_index_impl
    rw [if_neg h1, if_pos hother]
  · rintro ⟨s, hs, hnone⟩
    have hmem : s ∈ other_symbols e := Finset.mem_filter.mpr ⟨hs, hnone⟩
    have h1 : e.free_symbols ≠ ∅ := fun hc => by
      rw [hc] at hs; exact absurd hs (Finset.not_mem_empty s)
    unfold get_index_impl
    rw [if_neg h1, if_neg (Finset.ne_empty_of_mem hmem)]

/-- C6 witness: `index * 4` over table `{index ↦ (0, 100)}`: the derivative
is the positive constant 4, the symbol is classified increasing, and the
solver substitutes the bounds, giving `[0, 400]`. -/
theorem get_index_impl_characterization_witness :
    get_index_impl (.mul (.varE 0) (.const 4)) (fun _ => (0, 100)) =
      ⟨.val 0, .val 400⟩ := by
  have h := (get_index_impl_characterization (.mul (.varE 0) (.const 4))
    (fun _ => (0, 100))).2.1 (by decide) (by decide)
  rw [h]
  decide

end OptInd
